import Mathlib

/-!
# Verification of the `todo-tui` UI state machine

Shallow embedding of `src/main.rs`, a terminal TODO-list application.

The embedding covers:

* the data model (`TodoItem`, `AppState`, `CurrentScreen`);
* the text-input state of the `tui_input::Input` collaborator (value as a
  list of characters plus a character-index cursor), with the operations the
  program uses: `From<String>`, `value_and_reset`, the crossterm
  `handle_event` backend (character insertion / deletion at the cursor), and
  the `visual_cursor` / `visual_scroll` display computations;
* the `ratatui::widgets::ListState` collaborator: the `selected` field with
  `select_previous` / `select_next` (saturating arithmetic on `usize`), and
  the selection clamping that `List`'s `StatefulWidget::render` performs
  (selection cleared when the item list is empty, clamped to the last index
  when out of bounds).  The `offset` scroll field of `ListState` is not
  observed by any property and is omitted;
* one iteration of the `run_app` event loop: read one event, dispatch on
  `(current_screen, key code)`, then redraw the screen matching the new
  `current_screen` value (the redraw is modelled by its state effect only).

Rust `Vec` indexing and `Vec::remove` / `Vec::insert` panic when out of
bounds; the corresponding paths of the loop are modelled by `Option`, with
`none` standing for the panic.
-/

namespace TodoTui

/-- Character display widths, as `unicode_width`'s
`UnicodeWidthChar::width(c).unwrap_or(0)`.  The concrete width table is
external data of the `unicode_width` crate; all display-geometry theorems are
proved for an arbitrary width assignment. -/
abbrev CharWidth := Char → Nat

/-- `CurrentScreen` from `src/main.rs`. -/
inductive CurrentScreen where
  | Main
  | Add
  | Edit
  | Exit
deriving Repr, DecidableEq

/-- `TodoItem` from `src/main.rs`.  A Rust `String` is embedded as its list
of characters. -/
structure TodoItem where
  done : Bool
  description : List Char
deriving Repr, DecidableEq

/-- The state of `tui_input::Input`: the text and the cursor, a character
index into the text. -/
structure Input where
  value : List Char
  cursor : Nat
deriving Repr, DecidableEq

namespace Input

/-- `Input::default()`: empty value, cursor `0`. -/
def default : Input := ⟨[], 0⟩

/-- `impl From<String> for Input`: takes the value and puts the cursor after
the last character (`value.chars().count()`). -/
def fromString (s : List Char) : Input := ⟨s, s.length⟩

/-- `Input::value_and_reset()`: returns the value and resets the input to
`default`. -/
def value_and_reset (i : Input) : List Char × Input := (i.value, default)

/-- `InputRequest::InsertChar` handling: inserts the character at the cursor
position and advances the cursor. -/
def insertChar (c : Char) (i : Input) : Input :=
  ⟨i.value.take i.cursor ++ c :: i.value.drop i.cursor, i.cursor + 1⟩

/-- `InputRequest::DeletePrevChar` handling: removes the character before the
cursor (no-op when the cursor is at the start). -/
def deletePrevChar (i : Input) : Input :=
  if i.cursor = 0 then i
  else ⟨i.value.take (i.cursor - 1) ++ i.value.drop i.cursor, i.cursor - 1⟩

/-- `InputRequest::DeleteNextChar` handling: removes the character at the
cursor. -/
def deleteNextChar (i : Input) : Input :=
  ⟨i.value.take i.cursor ++ i.value.drop (i.cursor + 1), i.cursor⟩

/-- `InputRequest::GoToPrevChar` handling. -/
def goToPrevChar (i : Input) : Input := ⟨i.value, i.cursor - 1⟩

/-- `InputRequest::GoToNextChar` handling. -/
def goToNextChar (i : Input) : Input := ⟨i.value, min (i.cursor + 1) i.value.length⟩

/-- `Input::visual_cursor()`: display width of the text before the cursor
(the crate sums the widths of the first `cursor` characters; a cursor past
the end takes the whole text, which `List.take` already does). -/
def visual_cursor (cw : CharWidth) (i : Input) : Nat :=
  ((i.value.take i.cursor).map cw).sum

/-- The scan loop inside `Input::visual_scroll`: starting from accumulator
`u`, add character widths while the accumulator is below `scroll`, stopping
at the end of the text. -/
def scrollScan (cw : CharWidth) (scroll : Nat) : List Char → Nat → Nat
  | [], u => u
  | c :: cs, u => if u < scroll then scrollScan cw scroll cs (u + cw c) else u

/-- `Input::visual_scroll(width)`: `scroll = visual_cursor().max(width) - width`,
then the scan loop over the text's characters starting from `0`. -/
def visual_scroll (cw : CharWidth) (width : Nat) (i : Input) : Nat :=
  scrollScan cw (max (visual_cursor cw i) width - width) i.value 0

end Input

/-- `usize::MAX` on a 64-bit platform. -/
def USIZE_MAX : Nat := 2 ^ 64 - 1

/-- The `selected` field of `ratatui::widgets::ListState`.  (The `offset`
scroll field is never observed by the program's logic and is omitted.) -/
structure ListState where
  selected : Option Nat
deriving Repr, DecidableEq

namespace ListState

/-- `ListState::default()`: nothing selected. -/
def default : ListState := ⟨none⟩

/-- `ListState::select_previous()`: `selected.map_or(usize::MAX, |i| i.saturating_sub(1))`,
then selected.  Saturating subtraction on `usize` is truncated subtraction
on `Nat`. -/
def select_previous (st : ListState) : ListState :=
  ⟨some (match st.selected with
    | none => USIZE_MAX
    | some i => i - 1)⟩

/-- `ListState::select_next()`: `selected.map_or(0, |i| i.saturating_add(1))`,
then selected. -/
def select_next (st : ListState) : ListState :=
  ⟨some (match st.selected with
    | none => 0
    | some i => min (i + 1) USIZE_MAX)⟩

end ListState

/-- Whether the inner area of the bordered `List` block in `main_ui` is
empty: `Block::bordered` shrinks the `fw × fh` frame by one cell on each
side (`saturating_sub`), and `Rect::is_empty` holds when either dimension is
zero — so the list area is empty iff the frame is at most 2 cells wide or
at most 2 cells tall. -/
def listAreaEmpty (fw fh : Nat) : Bool := fw - 2 = 0 || fh - 2 = 0

/-- The selection update performed by `ratatui`'s `List` renderer
(`StatefulWidget::render` in `main_ui`) on a frame of size `fw × fh`: the
renderer returns immediately (touching nothing) when the block's inner area
is empty (`if list_area.is_empty() { return; }`); otherwise, when the item
list is empty the selection is cleared, and a selected index past the end
is clamped to the last item. -/
def listRender (fw fh : Nat) (len : Nat) (st : ListState) : ListState :=
  if listAreaEmpty fw fh then st
  else if len = 0 then ⟨none⟩
  else match st.selected with
    | none => st
    | some i => if len ≤ i then ⟨some (len - 1)⟩ else st

/-- `AppState` from `src/main.rs`. -/
structure AppState where
  current_screen : CurrentScreen
  input : Input
  currently_editing : Option TodoItem
  edit_index : Nat
  todo_list_state : ListState
  items : List TodoItem
deriving Repr, DecidableEq

namespace AppState

/-- `AppState::new()`. -/
def new : AppState :=
  { current_screen := CurrentScreen.Main
    input := Input.default
    currently_editing := none
    edit_index := 0
    todo_list_state := ListState.default
    items := [] }

/-- `AppState::add_item`: pushes onto the end of `items`. -/
def add_item (todo_item : TodoItem) (s : AppState) : AppState :=
  { s with items := s.items ++ [todo_item] }

/-- `AppState::remove_at`: `Vec::remove(index)`; panics (modelled `none`)
when the index is out of bounds. -/
def remove_at (index : Nat) (s : AppState) : Option AppState :=
  if index < s.items.length then some { s with items := s.items.eraseIdx index }
  else none

/-- `AppState::replace`: removes the item at `index` and inserts the new item
at the same position.  `Vec::remove` panics (modelled `none`) when the index
is out of bounds; after a successful removal the insertion index is always in
bounds. -/
def replace (todo_item : TodoItem) (index : Nat) (s : AppState) : Option AppState :=
  if index < s.items.length then
    some { s with items := (s.items.eraseIdx index).insertIdx index todo_item }
  else none

end AppState

/-- The key codes of `crossterm::event::KeyCode` that the program
distinguishes; every other code behaves like `other`. -/
inductive KeyCode where
  | Char (c : Char)
  | Enter
  | Esc
  | Backspace
  | Delete
  | Left
  | Right
  | Up
  | Down
  | other
deriving Repr, DecidableEq

/-- `crossterm::event::KeyEventKind`. -/
inductive KeyEventKind where
  | Press
  | Repeat
  | Release
deriving Repr, DecidableEq

/-- `crossterm::event::KeyEvent`: the code and the press/repeat/release
kind.  (Modifier keys are not modelled; the program's bindings are all
unmodified keys.) -/
structure KeyEvent where
  code : KeyCode
  kind : KeyEventKind
deriving Repr, DecidableEq

/-- `crossterm::event::Event`: a key event or any other event (mouse,
resize, ...), which the `if let Event::Key` in `run_app` ignores. -/
inductive Event where
  | Key (k : KeyEvent)
  | Other
deriving Repr, DecidableEq

/-- `tui_input`'s crossterm `EventHandler::handle_event`: key-press events
are translated to input requests (`Char` inserts, `Backspace` deletes
backwards, `Delete` forwards, `Left`/`Right` move the cursor); anything else
leaves the input unchanged. -/
def Input.handle_event (evt : Event) (i : Input) : Input :=
  match evt with
  | Event.Key ⟨code, KeyEventKind.Press⟩ =>
    match code with
    | KeyCode.Char c => i.insertChar c
    | KeyCode.Backspace => i.deletePrevChar
    | KeyCode.Delete => i.deleteNextChar
    | KeyCode.Left => i.goToPrevChar
    | KeyCode.Right => i.goToNextChar
    | _ => i
  | _ => i

/-- The `CurrentScreen::Main` arm of `run_app`'s dispatch. -/
def handleMain (code : KeyCode) (s : AppState) : Option AppState :=
  match code with
  | KeyCode.Char c =>
    if c = 'a' then some { s with current_screen := CurrentScreen.Add }
    else if c = 'q' then some { s with current_screen := CurrentScreen.Exit }
    else if c = ' ' then
      if s.items.length > 0 then
        match s.todo_list_state.selected with
        | some sel_index =>
          match s.items[sel_index]? with
          | some e =>
            some { s with items := s.items.set sel_index { e with done := !e.done } }
          | none => none
        | none => some s
      else some s
    else some s
  | KeyCode.Enter =>
    if s.items.length > 0 then
      match s.todo_list_state.selected with
      | some sel_index =>
        match s.items[sel_index]? with
        | some e =>
          some { s with
            input := Input.fromString e.description
            currently_editing := some e
            current_screen := CurrentScreen.Edit }
        | none => none
      | none => some s
    else some s
  | KeyCode.Up =>
    some { s with todo_list_state := s.todo_list_state.select_previous }
  | KeyCode.Down =>
    some { s with todo_list_state := s.todo_list_state.select_next }
  | _ => some s

/-- The `CurrentScreen::Edit` arm of `run_app`'s dispatch.  `evt` is the raw
event, forwarded to the input handler by the catch-all arm. -/
def handleEdit (code : KeyCode) (evt : Event) (s : AppState) : Option AppState :=
  match code with
  | KeyCode.Esc => some { s with current_screen := CurrentScreen.Main }
  | KeyCode.Enter =>
    match s.todo_list_state.selected with
    | some sel_index =>
      match s.currently_editing with
      | some ce =>
        let vr := s.input.value_and_reset
        match AppState.replace ⟨ce.done, vr.1⟩ sel_index { s with input := vr.2 } with
        | some s2 => some { s2 with current_screen := CurrentScreen.Main }
        | none => none
      | none => some { s with current_screen := CurrentScreen.Main }
    | none => some { s with current_screen := CurrentScreen.Main }
  | _ => some { s with input := s.input.handle_event evt }

/-- The `CurrentScreen::Add` arm of `run_app`'s dispatch. -/
def handleAdd (code : KeyCode) (evt : Event) (s : AppState) : Option AppState :=
  match code with
  | KeyCode.Esc => some { s with current_screen := CurrentScreen.Main }
  | KeyCode.Enter =>
    let vr := s.input.value_and_reset
    some { s with
      items := s.items ++ [⟨false, vr.1⟩]
      input := vr.2
      current_screen := CurrentScreen.Main }
  | _ => some { s with input := s.input.handle_event evt }

/-- The key dispatch of `run_app`: match on `current_screen`, then on the
key code (`CurrentScreen::Exit` falls into the catch-all arm). -/
def handleKey (k : KeyEvent) (evt : Event) (s : AppState) : Option AppState :=
  match s.current_screen with
  | CurrentScreen.Main => handleMain k.code s
  | CurrentScreen.Edit => handleEdit k.code evt s
  | CurrentScreen.Add => handleAdd k.code evt s
  | CurrentScreen.Exit => some s

/-- The state effect of the redraw at the bottom of the loop, on a frame of
size `fw × fh`: `main_ui` clamps the list selection through `List`'s
renderer (which does nothing when its inner area is empty); `edit_ui` falls
back to the `Main` screen when there is no item being edited (this
assignment carries no area check); `add_ui` mutates no state; at `Exit` the
loop breaks without drawing. -/
def renderEffect (fw fh : Nat) (s : AppState) : AppState :=
  match s.current_screen with
  | CurrentScreen.Main =>
    { s with
      todo_list_state := listRender fw fh s.items.length s.todo_list_state }
  | CurrentScreen.Edit =>
    match s.currently_editing with
    | some _ => s
    | none => { s with current_screen := CurrentScreen.Main }
  | CurrentScreen.Add => s
  | CurrentScreen.Exit => s

/-- One iteration of `run_app`'s loop on one read event, drawn on a frame of
size `fw × fh`: a key-release event hits `continue` and skips both dispatch
and redraw; any other key event is dispatched and then the screen is
redrawn; a non-key event skips dispatch but is still followed by the
redraw. -/
def step (fw fh : Nat) (evt : Event) (s : AppState) : Option AppState :=
  match evt with
  | Event.Key k =>
    if k.kind = KeyEventKind.Release then some s
    else (handleKey k evt s).map (renderEffect fw fh)
  | Event.Other => some (renderEffect fw fh s)

/-- Iterating `step` over a list of events, with the terminal size fixed
over the trace. -/
def steps (fw fh : Nat) : List Event → AppState → Option AppState
  | [], s => some s
  | e :: es, s =>
    match step fw fh e s with
    | some t => steps fw fh es t
    | none => none

/-- Key-press event with the given code. -/
def press (c : KeyCode) : Event := Event.Key ⟨c, KeyEventKind.Press⟩

/-- Key-press events typing out a piece of text. -/
def typing (cs : List Char) : List Event := cs.map (fun c => press (KeyCode.Char c))

/-- The states the application can reach from `AppState.new` by processing
events, with an arbitrary (possibly degenerate) terminal size at each
iteration. -/
inductive Reachable : AppState → Prop
  | init : Reachable AppState.new
  | next {s t : AppState} {e : Event} {fw fh : Nat} :
      Reachable s → step fw fh e s = some t → Reachable t

/-- The states the application can reach when every redraw happens on a
usable terminal: one strictly larger than the list block's border in both
dimensions (width and height `> 2`), so the `List` renderer's inner area is
never empty. -/
inductive ReachableUsable : AppState → Prop
  | init : ReachableUsable AppState.new
  | next {s t : AppState} {e : Event} {fw fh : Nat} :
      ReachableUsable s → 2 < fw → 2 < fh →
      step fw fh e s = some t → ReachableUsable t

/-! ## Helper lemmas -/

/-- The selection-cursor validity predicate: any selected index is a valid
position of the item list. -/
def selValid (s : AppState) : Prop :=
  ∀ i, s.todo_list_state.selected = some i → i < s.items.length

/-- The Edit-screen invariant: on the `Edit` screen an item is being
edited.  This holds of every reachable state, whatever the terminal
geometry. -/
def editInv (s : AppState) : Prop :=
  s.current_screen = CurrentScreen.Edit → s.currently_editing.isSome

/-- The loop invariant on a usable terminal: the selection is valid, and on
the `Edit` screen an item is being edited. -/
def Inv (s : AppState) : Prop :=
  selValid s ∧ editInv s

theorem inv_new : Inv AppState.new := by
  constructor
  · intro i h
    simp [AppState.new, ListState.default] at h
  · intro h
    simp [AppState.new] at h

theorem listAreaEmpty_false {fw fh : Nat} (hfw : 2 < fw) (hfh : 2 < fh) :
    listAreaEmpty fw fh = false := by
  simp [listAreaEmpty]
  omega

theorem listRender_valid {fw fh : Nat} (hfw : 2 < fw) (hfh : 2 < fh)
    (len : Nat) (st : ListState) :
    ∀ i, (listRender fw fh len st).selected = some i → i < len := by
  intro i h
  obtain ⟨sel⟩ := st
  unfold listRender at h
  rw [listAreaEmpty_false hfw hfh] at h
  cases sel with
  | none =>
    by_cases h0 : len = 0 <;> simp [h0] at h
  | some j =>
    by_cases h0 : len = 0
    · simp [h0] at h
    · by_cases hle : len ≤ j <;> simp [h0, hle] at h <;> omega

/-- The renderer leaves an empty selection empty, whatever the geometry:
when the inner area is empty it touches nothing, and otherwise both the
empty-list clearing and the `none` match arm return the empty selection. -/
theorem listRender_none (fw fh len : Nat) :
    listRender fw fh len ⟨none⟩ = ⟨none⟩ := by
  unfold listRender
  split
  · rfl
  · split <;> rfl

/-- The renderer leaves an in-bounds selection untouched, whatever the
geometry: the empty-area early return and the in-bounds clamp branch both
return the state unchanged. -/
theorem listRender_inbounds {fw fh len i : Nat} (h : i < len) :
    listRender fw fh len ⟨some i⟩ = ⟨some i⟩ := by
  have h0 : ¬len = 0 := by omega
  have h1 : ¬len ≤ i := by omega
  unfold listRender
  split
  · rfl
  · simp [h0, h1]

theorem replace_eq_set {l : List TodoItem} {i : Nat} (h : i < l.length)
    (a : TodoItem) : (l.eraseIdx i).insertIdx i a = l.set i a := by
  induction l generalizing i with
  | nil => simp at h
  | cons x xs ih =>
    match i with
    | 0 => simp [List.eraseIdx_cons_zero, List.insertIdx_zero]
    | j + 1 =>
      simp only [List.eraseIdx_cons_succ, List.insertIdx_succ_cons,
        List.set_cons_succ]
      rw [ih (by simpa using h)]

theorem renderEffect_items (fw fh : Nat) (s : AppState) :
    (renderEffect fw fh s).items = s.items := by
  unfold renderEffect
  cases hs : s.current_screen <;> simp only [hs] <;> try rfl
  cases hce : s.currently_editing <;> simp [hce]

theorem renderEffect_editing (fw fh : Nat) (s : AppState) :
    (renderEffect fw fh s).currently_editing = s.currently_editing := by
  unfold renderEffect
  cases hs : s.current_screen <;> simp only [hs] <;> try rfl
  cases hce : s.currently_editing <;> simp [hce]

theorem renderEffect_input (fw fh : Nat) (s : AppState) :
    (renderEffect fw fh s).input = s.input := by
  unfold renderEffect
  cases hs : s.current_screen <;> simp only [hs] <;> try rfl
  cases hce : s.currently_editing <;> simp [hce]

/-- After the key dispatch, either the selection is still valid or the
screen is `Main` (whose redraw re-establishes validity on a usable
terminal), and on the `Edit` screen an item is being edited. -/
theorem handle_inv {k : KeyEvent} {evt : Event} {s t : AppState} (hs : Inv s)
    (hh : handleKey k evt s = some t) :
    (selValid t ∨ t.current_screen = CurrentScreen.Main) ∧
      (t.current_screen = CurrentScreen.Edit → t.currently_editing.isSome) := by
  obtain ⟨hsel, hedit⟩ := hs
  unfold handleKey handleMain handleEdit handleAdd at hh
  cases hscreen : s.current_screen <;> simp only [hscreen] at hh <;>
    cases hcode : k.code <;> (try simp only [hcode] at hh) <;>
    (try simp only [AppState.replace, Input.value_and_reset] at hh) <;>
    (repeat' split at hh) <;> cases hh <;> refine ⟨?_, ?_⟩ <;>
    first
      | exact Or.inl hsel
      | exact Or.inr rfl
      | exact hedit
      | (intro hcontra; exact hedit hscreen)
      | (intro hcontra; rfl)
      | (intro hcontra; simp at hcontra)

/-- The key dispatch preserves the Edit-screen invariant on its own. -/
theorem handle_editInv {k : KeyEvent} {evt : Event} {s t : AppState}
    (hedit : editInv s) (hh : handleKey k evt s = some t) : editInv t := by
  unfold handleKey handleMain handleEdit handleAdd at hh
  cases hscreen : s.current_screen <;> simp only [hscreen] at hh <;>
    cases hcode : k.code <;> (try simp only [hcode] at hh) <;>
    (try simp only [AppState.replace, Input.value_and_reset] at hh) <;>
    (repeat' split at hh) <;> cases hh <;>
    first
      | exact hedit
      | (intro hcontra; exact hedit hscreen)
      | (intro hcontra; rfl)
      | (intro hcontra; simp at hcontra)

theorem renderEffect_inv {fw fh : Nat} {s : AppState} (hfw : 2 < fw)
    (hfh : 2 < fh)
    (h1 : selValid s ∨ s.current_screen = CurrentScreen.Main)
    (h2 : editInv s) :
    Inv (renderEffect fw fh s) := by
  unfold renderEffect
  cases hs : s.current_screen <;> simp only [hs]
  case Main =>
    refine ⟨fun i hi => listRender_valid hfw hfh _ _ i hi, ?_⟩
    intro hcontra
    simp at hcontra
  case Add =>
    refine ⟨?_, h2⟩
    rcases h1 with h1 | h1
    · exact h1
    · exact absurd (hs.symm.trans h1) (by decide)
  case Edit =>
    obtain ⟨ce, hce⟩ := Option.isSome_iff_exists.mp (h2 hs)
    simp only [hce]
    refine ⟨?_, fun _ => by simp [hce]⟩
    rcases h1 with h1 | h1
    · exact h1
    · exact absurd (hs.symm.trans h1) (by decide)
  case Exit =>
    refine ⟨?_, h2⟩
    rcases h1 with h1 | h1
    · exact h1
    · exact absurd (hs.symm.trans h1) (by decide)

/-- The redraw preserves the Edit-screen invariant on any geometry
(including degenerate frames). -/
theorem renderEffect_editInv {fw fh : Nat} {s : AppState} (h2 : editInv s) :
    editInv (renderEffect fw fh s) := by
  unfold renderEffect
  cases hs : s.current_screen <;> simp only [hs]
  case Main =>
    intro hcontra
    simp at hcontra
  case Add => exact h2
  case Edit =>
    cases hce : s.currently_editing <;> simp only [hce]
    · intro hcontra
      simp at hcontra
    · exact h2
  case Exit => exact h2

theorem inv_step {fw fh : Nat} {s t : AppState} {e : Event} (hfw : 2 < fw)
    (hfh : 2 < fh) (hs : Inv s) (hst : step fw fh e s = some t) : Inv t := by
  cases e with
  | Other =>
    simp only [step] at hst
    injection hst with hst
    subst hst
    exact renderEffect_inv hfw hfh (Or.inl hs.1) hs.2
  | Key k =>
    simp only [step] at hst
    by_cases hk : k.kind = KeyEventKind.Release
    · rw [if_pos hk] at hst
      injection hst with hst
      subst hst
      exact hs
    · rw [if_neg hk] at hst
      match hh : handleKey k (Event.Key k) s with
      | some u =>
        rw [hh] at hst
        simp only [Option.map_some'] at hst
        injection hst with hst
        subst hst
        obtain ⟨hl, hr⟩ := handle_inv hs hh
        exact renderEffect_inv hfw hfh hl hr
      | none =>
        rw [hh] at hst
        simp at hst

/-- The Edit-screen invariant is preserved by every step, degenerate
geometry included. -/
theorem editInv_step {fw fh : Nat} {s t : AppState} {e : Event}
    (hs : editInv s) (hst : step fw fh e s = some t) : editInv t := by
  cases e with
  | Other =>
    simp only [step] at hst
    injection hst with hst
    subst hst
    exact renderEffect_editInv hs
  | Key k =>
    simp only [step] at hst
    by_cases hk : k.kind = KeyEventKind.Release
    · rw [if_pos hk] at hst
      injection hst with hst
      subst hst
      exact hs
    · rw [if_neg hk] at hst
      match hh : handleKey k (Event.Key k) s with
      | some u =>
        rw [hh] at hst
        simp only [Option.map_some'] at hst
        injection hst with hst
        subst hst
        exact renderEffect_editInv (handle_editInv hs hh)
      | none =>
        rw [hh] at hst
        simp at hst

theorem inv_reachable {s : AppState} (h : ReachableUsable s) : Inv s := by
  induction h with
  | init => exact inv_new
  | next _ hfw hfh hstep ih => exact inv_step hfw hfh ih hstep

theorem editInv_reachable {s : AppState} (h : Reachable s) : editInv s := by
  induction h with
  | init => exact inv_new.2
  | next _ hstep ih => exact editInv_step ih hstep

/-- An empty item list forces an empty selection, for states satisfying the
invariant. -/
theorem selValid_empty_none {s : AppState} (hs : Inv s) (he : s.items = []) :
    s.todo_list_state.selected = none := by
  match hsel : s.todo_list_state.selected with
  | none => rfl
  | some i =>
    have := hs.1 i hsel
    rw [he] at this
    simp at this

/-- Events that at most edit the text input while on the `Add` or `Edit`
screen: non-key events, key releases, and key events whose code is neither
`Enter` nor `Esc`. -/
def inputNeutral : Event → Bool
  | Event.Other => true
  | Event.Key k =>
    match k.kind with
    | KeyEventKind.Release => true
    | _ =>
      match k.code with
      | KeyCode.Enter => false
      | KeyCode.Esc => false
      | _ => true

theorem step_edit_neutral (fw fh : Nat) {s : AppState} {e : Event}
    {ce : TodoItem}
    (hscreen : s.current_screen = CurrentScreen.Edit)
    (hce : s.currently_editing = some ce)
    (hn : inputNeutral e = true) :
    step fw fh e s = some { s with input := s.input.handle_event e } := by
  obtain ⟨scr, inp0, ced, ei, tls, its⟩ := s
  dsimp only at hscreen hce
  subst hscreen
  subst hce
  cases e with
  | Other => rfl
  | Key k =>
    obtain ⟨code, kind⟩ := k
    cases kind <;> cases code <;> first | rfl | exact absurd hn (by decide)

theorem steps_edit_neutral {fw fh : Nat} {evs : List Event} {s : AppState}
    {c : TodoItem}
    (hscreen : s.current_screen = CurrentScreen.Edit)
    (hce : s.currently_editing = some c)
    (hn : ∀ e ∈ evs, inputNeutral e = true) :
    ∃ inp, steps fw fh evs s = some { s with input := inp } := by
  induction evs generalizing s with
  | nil => exact ⟨s.input, by simp [steps]⟩
  | cons e es ih =>
    have h1 := step_edit_neutral fw fh hscreen hce (hn e (by simp))
    obtain ⟨inp2, h2⟩ :=
      ih (s := { s with input := s.input.handle_event e }) hscreen hce
        (fun x hx => hn x (by simp [hx]))
    refine ⟨inp2, ?_⟩
    simp only [steps, h1]
    exact h2

theorem step_add_neutral (fw fh : Nat) {s : AppState} {e : Event}
    (hscreen : s.current_screen = CurrentScreen.Add)
    (hn : inputNeutral e = true) :
    step fw fh e s = some { s with input := s.input.handle_event e } := by
  obtain ⟨scr, inp0, ced, ei, tls, its⟩ := s
  dsimp only at hscreen
  subst hscreen
  cases e with
  | Other => rfl
  | Key k =>
    obtain ⟨code, kind⟩ := k
    cases kind <;> cases code <;> first | rfl | exact absurd hn (by decide)

theorem steps_add_neutral {fw fh : Nat} {evs : List Event} {s : AppState}
    (hscreen : s.current_screen = CurrentScreen.Add)
    (hn : ∀ e ∈ evs, inputNeutral e = true) :
    ∃ inp, steps fw fh evs s = some { s with input := inp } := by
  induction evs generalizing s with
  | nil => exact ⟨s.input, by simp [steps]⟩
  | cons e es ih =>
    have h1 := step_add_neutral fw fh hscreen (hn e (by simp))
    obtain ⟨inp2, h2⟩ :=
      ih (s := { s with input := s.input.handle_event e }) hscreen
        (fun x hx => hn x (by simp [hx]))
    refine ⟨inp2, ?_⟩
    simp only [steps, h1]
    exact h2

/-! ## Single-step characterizations -/

theorem step_main_a (fw fh : Nat) {s : AppState}
    (hscr : s.current_screen = CurrentScreen.Main) :
    step fw fh (press (KeyCode.Char 'a')) s =
      some { s with current_screen := CurrentScreen.Add } := by
  obtain ⟨scr, inp0, ced, ei, tls, its⟩ := s
  dsimp only at hscr
  subst hscr
  rfl

theorem step_esc_add (fw fh : Nat) {s : AppState}
    (hscr : s.current_screen = CurrentScreen.Add) :
    step fw fh (press KeyCode.Esc) s =
      some { s with
        current_screen := CurrentScreen.Main
        todo_list_state :=
          listRender fw fh s.items.length s.todo_list_state } := by
  obtain ⟨scr, inp0, ced, ei, tls, its⟩ := s
  dsimp only at hscr
  subst hscr
  rfl

theorem step_esc_edit (fw fh : Nat) {s : AppState}
    (hscr : s.current_screen = CurrentScreen.Edit) :
    step fw fh (press KeyCode.Esc) s =
      some { s with
        current_screen := CurrentScreen.Main
        todo_list_state :=
          listRender fw fh s.items.length s.todo_list_state } := by
  obtain ⟨scr, inp0, ced, ei, tls, its⟩ := s
  dsimp only at hscr
  subst hscr
  rfl

theorem step_add_commit (fw fh : Nat) {s : AppState}
    (hscr : s.current_screen = CurrentScreen.Add) :
    step fw fh (press KeyCode.Enter) s =
      some { s with
        current_screen := CurrentScreen.Main
        input := Input.default
        todo_list_state :=
          listRender fw fh (s.items ++ [TodoItem.mk false s.input.value]).length
            s.todo_list_state
        items := s.items ++ [TodoItem.mk false s.input.value] } := by
  obtain ⟨scr, inp0, ced, ei, tls, its⟩ := s
  dsimp only at hscr
  subst hscr
  rfl

theorem step_main_enter (fw fh : Nat) {s : AppState} {i : Nat} {e : TodoItem}
    (hscr : s.current_screen = CurrentScreen.Main)
    (hsel : s.todo_list_state.selected = some i)
    (hget : s.items[i]? = some e) :
    step fw fh (press KeyCode.Enter) s =
      some { s with
        current_screen := CurrentScreen.Edit
        input := Input.fromString e.description
        currently_editing := some e } := by
  have hlen : 0 < s.items.length := by
    obtain ⟨hlt, -⟩ := List.getElem?_eq_some.mp hget
    omega
  obtain ⟨scr, inp0, ced, ei, ⟨selop⟩, its⟩ := s
  dsimp only at hscr hsel hget hlen
  subst hscr
  subst hsel
  simp [step, press, handleKey, handleMain, hget, hlen, renderEffect]

theorem step_edit_commit (fw fh : Nat) {s : AppState} {i : Nat}
    {ce : TodoItem}
    (hscr : s.current_screen = CurrentScreen.Edit)
    (hsel : s.todo_list_state.selected = some i)
    (hlen : i < s.items.length)
    (hce : s.currently_editing = some ce) :
    step fw fh (press KeyCode.Enter) s =
      some { s with
        current_screen := CurrentScreen.Main
        input := Input.default
        items := s.items.set i ⟨ce.done, s.input.value⟩ } := by
  obtain ⟨scr, inp0, ced, ei, ⟨selop⟩, its⟩ := s
  dsimp only at hscr hsel hce hlen
  subst hscr
  subst hsel
  subst hce
  simp [step, press, handleKey, handleEdit, AppState.replace,
    Input.value_and_reset, hlen, replace_eq_set hlen, renderEffect,
    List.length_set, listRender_inbounds, hlen]

theorem step_main_space_toggle (fw fh : Nat) {s : AppState} {i : Nat}
    {e : TodoItem}
    (hscr : s.current_screen = CurrentScreen.Main)
    (hsel : s.todo_list_state.selected = some i)
    (hget : s.items[i]? = some e) :
    step fw fh (press (KeyCode.Char ' ')) s =
      some { s with items := s.items.set i ⟨!e.done, e.description⟩ } := by
  have hlen : i < s.items.length := by
    obtain ⟨hlt, -⟩ := List.getElem?_eq_some.mp hget
    omega
  obtain ⟨scr, inp0, ced, ei, ⟨selop⟩, its⟩ := s
  dsimp only at hscr hsel hget hlen
  subst hscr
  subst hsel
  have hne : ¬its = [] := by
    intro hc
    subst hc
    simp at hlen
  simp [step, press, handleKey, handleMain, hget, renderEffect,
    List.length_set, listRender_inbounds, hlen, hne, Nat.pos_iff_ne_zero]

theorem step_main_space_none (fw fh : Nat) {s : AppState}
    (hscr : s.current_screen = CurrentScreen.Main)
    (hsel : s.todo_list_state.selected = none) :
    step fw fh (press (KeyCode.Char ' ')) s = some s := by
  obtain ⟨scr, inp0, ced, ei, ⟨selop⟩, its⟩ := s
  dsimp only at hscr hsel
  subst hscr
  subst hsel
  rcases Nat.eq_zero_or_pos its.length with h0 | h0
  · simp [step, press, handleKey, handleMain, renderEffect, listRender_none,
      h0]
  · simp [step, press, handleKey, handleMain, renderEffect, listRender_none,
      Nat.pos_iff_ne_zero.mp h0, h0]

/-! ## Claim theorems -/

/-- A state with an empty list but a stale selection, reached from the
initial state by pressing Down while the terminal is 2×2 (the bordered list
area is empty, so the renderer's clamp is skipped). -/
def staleSel : AppState :=
  { AppState.new with todo_list_state := ⟨some 0⟩ }

/-- C1 counterexample: on a 2×2 frame the `List` renderer returns before
clamping (`if list_area.is_empty() { return; }`), so pressing Down on the
empty initial list leaves the out-of-range selection `some 0` at the loop
boundary: a reachable state whose list is empty yet whose selection is
neither `none` nor a valid index — and the Down press was not a no-op. -/
theorem selection_cursor_invariant_cex :
    step 2 2 (press KeyCode.Down) AppState.new = some staleSel ∧
    Reachable staleSel ∧
    staleSel.items = [] ∧
    staleSel.todo_list_state.selected = some 0 ∧
    ¬staleSel.todo_list_state.selected = none ∧
    ¬0 < staleSel.items.length ∧
    ¬staleSel = AppState.new :=
  ⟨by decide,
    @Reachable.next AppState.new staleSel (press KeyCode.Down) 2 2
      Reachable.init (by decide),
    by decide, by decide, by decide, by decide, by decide⟩

/-- C1 amended: for every state reachable with all redraws on a usable
terminal (frame width and height `> 2`, so the bordered list area is never
empty and ratatui's clamp always runs), the selection cursor is either
`none` (and it is `none` whenever the task list is empty) or a valid index
in `[0, len)`; pressing Up or Down on the Main screen with an empty list is
then a no-op; processing any event on such a terminal keeps the selection
inside the range; and at the boundaries Up keeps the selection at `0` (on
any terminal) and Down keeps it at the last index (clamped, not
wrapped). -/
theorem selection_cursor_invariant (s : AppState) (hr : ReachableUsable s) :
    (∀ i, s.todo_list_state.selected = some i → i < s.items.length) ∧
    (s.items = [] → s.todo_list_state.selected = none) ∧
    (∀ fw fh, 2 < fw → 2 < fh → s.items = [] →
      s.current_screen = CurrentScreen.Main →
      step fw fh (press KeyCode.Up) s = some s ∧
        step fw fh (press KeyCode.Down) s = some s) ∧
    (∀ fw fh e t, 2 < fw → 2 < fh → step fw fh e s = some t →
      ∀ i, t.todo_list_state.selected = some i → i < t.items.length) ∧
    (∀ fw fh, s.current_screen = CurrentScreen.Main →
      s.todo_list_state.selected = some 0 →
      step fw fh (press KeyCode.Up) s = some s) ∧
    (∀ fw fh i, 2 < fw → 2 < fh → s.current_screen = CurrentScreen.Main →
      s.todo_list_state.selected = some i → i + 1 = s.items.length →
      i + 1 ≤ USIZE_MAX →
      step fw fh (press KeyCode.Down) s = some s) := by
  obtain ⟨hsel, hedit⟩ := inv_reachable hr
  refine ⟨hsel, fun he => selValid_empty_none ⟨hsel, hedit⟩ he, ?_, ?_, ?_, ?_⟩
  · intro fw fh hfw hfh he hscr
    have hnone := selValid_empty_none ⟨hsel, hedit⟩ he
    obtain ⟨scr, inp0, ced, ei, ⟨selop⟩, its⟩ := s
    dsimp only at he hscr hnone
    subst he
    subst hscr
    subst hnone
    constructor <;>
      simp [step, press, handleKey, handleMain, renderEffect, listRender,
        listAreaEmpty_false hfw hfh, ListState.select_previous,
        ListState.select_next]
  · intro fw fh e t hfw hfh hst i hti
    exact (inv_step hfw hfh ⟨hsel, hedit⟩ hst).1 i hti
  · intro fw fh hscr hsel0
    have hlen := hsel 0 hsel0
    obtain ⟨scr, inp0, ced, ei, ⟨selop⟩, its⟩ := s
    dsimp only at hscr hsel0 hlen
    subst hscr
    subst hsel0
    simp [step, press, handleKey, handleMain, ListState.select_previous,
      renderEffect, listRender_inbounds hlen]
  · intro fw fh i hfw hfh hscr hseli hlast hmax
    have hlen := hsel i hseli
    obtain ⟨scr, inp0, ced, ei, ⟨selop⟩, its⟩ := s
    dsimp only at hscr hseli hlast hlen
    subst hscr
    subst hseli
    simp only [step, press, handleKey, handleMain, ListState.select_next,
      min_eq_left hmax]
    simp [renderEffect, listRender, listAreaEmpty_false hfw hfh, ← hlast]

/-- C1 witness: the amended invariant instantiated at the initial state. -/
theorem selection_cursor_invariant_witness :
    (∀ i, AppState.new.todo_list_state.selected = some i →
      i < AppState.new.items.length) ∧
    (AppState.new.items = [] → AppState.new.todo_list_state.selected = none) ∧
    (∀ fw fh, 2 < fw → 2 < fh → AppState.new.items = [] →
      AppState.new.current_screen = CurrentScreen.Main →
      step fw fh (press KeyCode.Up) AppState.new = some AppState.new ∧
        step fw fh (press KeyCode.Down) AppState.new = some AppState.new) ∧
    (∀ fw fh e t, 2 < fw → 2 < fh → step fw fh e AppState.new = some t →
      ∀ i, t.todo_list_state.selected = some i → i < t.items.length) ∧
    (∀ fw fh, AppState.new.current_screen = CurrentScreen.Main →
      AppState.new.todo_list_state.selected = some 0 →
      step fw fh (press KeyCode.Up) AppState.new = some AppState.new) ∧
    (∀ fw fh i, 2 < fw → 2 < fh →
      AppState.new.current_screen = CurrentScreen.Main →
      AppState.new.todo_list_state.selected = some i →
      i + 1 = AppState.new.items.length → i + 1 ≤ USIZE_MAX →
      step fw fh (press KeyCode.Down) AppState.new = some AppState.new) :=
  selection_cursor_invariant AppState.new ReachableUsable.init

/-- C7 (code evaluated at the failing input): the loop's guard only skips
events of kind `Release`, although its comment says to skip everything that
is not a `Press`; a `Repeat`-kind key event for 'q' on the Main screen is
dispatched like a press and moves the application to the `Exit` screen —
the state changes even though the event is not a press, on every terminal
size.  (`Release` events are indeed discarded.) -/
theorem repeat_kind_event_mutates_state :
    (∀ fw fh,
      step fw fh (Event.Key ⟨KeyCode.Char 'q', KeyEventKind.Repeat⟩)
          AppState.new =
        some { AppState.new with current_screen := CurrentScreen.Exit }) ∧
    { AppState.new with current_screen := CurrentScreen.Exit } ≠
      AppState.new ∧
    (∀ fw fh,
      step fw fh (Event.Key ⟨KeyCode.Char 'q', KeyEventKind.Release⟩)
          AppState.new =
        some AppState.new) := by
  refine ⟨fun fw fh => rfl, by decide, fun fw fh => rfl⟩

/-- C2 counterexample: starting from the initial state on a normal 80×24
terminal, press 'a', type 'x', press Esc, press 'a' again; the application
is back on the Add screen but the input buffer still holds "x" — pressing
'a' did not clear the buffer and Esc did not reset it. -/
theorem add_does_not_clear_buffer_cex :
    steps 80 24 [press (KeyCode.Char 'a'), press (KeyCode.Char 'x'),
        press KeyCode.Esc, press (KeyCode.Char 'a')] AppState.new =
      some { AppState.new with
        current_screen := CurrentScreen.Add
        input := ⟨['x'], 1⟩ } ∧
    (⟨['x'], 1⟩ : Input).value ≠ [] := by
  refine ⟨by decide, by decide⟩

/-- C2 amended: pressing 'a' on the Main screen transitions to the Add
screen with the input buffer unchanged (not cleared), and Esc on the Add or
Edit screen returns to Main with the buffer unchanged (not reset); the
buffer is reset exactly by the commits that consume it through
`value_and_reset`: Enter on the Add screen, and Enter on the Edit screen
when a selection and an edited item exist.  When entering Edit from Main the
buffer is overwritten with the selected item's description. -/
theorem edit_buffer_reset_only_on_commit (s : AppState) :
    (∀ fw fh, s.current_screen = CurrentScreen.Main →
      step fw fh (press (KeyCode.Char 'a')) s =
        some { s with current_screen := CurrentScreen.Add }) ∧
    (∀ fw fh, s.current_screen = CurrentScreen.Add ∨
        s.current_screen = CurrentScreen.Edit →
      ∃ t, step fw fh (press KeyCode.Esc) s = some t ∧ t.input = s.input ∧
        t.current_screen = CurrentScreen.Main ∧ t.items = s.items) ∧
    (∀ fw fh, s.current_screen = CurrentScreen.Add →
      ∃ t, step fw fh (press KeyCode.Enter) s = some t ∧
        t.input = Input.default) ∧
    (∀ fw fh i ce, s.current_screen = CurrentScreen.Edit →
      s.todo_list_state.selected = some i → i < s.items.length →
      s.currently_editing = some ce →
      ∃ t, step fw fh (press KeyCode.Enter) s = some t ∧
        t.input = Input.default) ∧
    (∀ fw fh i e, s.current_screen = CurrentScreen.Main →
      s.todo_list_state.selected = some i → s.items[i]? = some e →
      ∃ t, step fw fh (press KeyCode.Enter) s = some t ∧
        t.input = Input.fromString e.description) := by
  refine ⟨fun fw fh h => step_main_a fw fh h, ?_, ?_, ?_, ?_⟩
  · rintro fw fh (h | h)
    · exact ⟨_, step_esc_add fw fh h, rfl, rfl, rfl⟩
    · exact ⟨_, step_esc_edit fw fh h, rfl, rfl, rfl⟩
  · intro fw fh h
    exact ⟨_, step_add_commit fw fh h, rfl⟩
  · intro fw fh i ce h1 h2 h3 h4
    exact ⟨_, step_edit_commit fw fh h1 h2 h3 h4, rfl⟩
  · intro fw fh i e h1 h2 h3
    exact ⟨_, step_main_enter fw fh h1 h2 h3, rfl⟩

/-- C2 witness: the amended behaviour at a concrete Add-screen state whose
buffer holds "x", on an 80×24 terminal: Esc keeps the buffer, Enter resets
it. -/
theorem edit_buffer_reset_only_on_commit_witness :
    (∃ t, step 80 24 (press KeyCode.Esc)
        { AppState.new with
          current_screen := CurrentScreen.Add, input := ⟨['x'], 1⟩ } =
          some t ∧
      t.input = ({ AppState.new with
          current_screen := CurrentScreen.Add,
          input := ⟨['x'], 1⟩ } : AppState).input ∧
      t.current_screen = CurrentScreen.Main ∧
      t.items = ({ AppState.new with
          current_screen := CurrentScreen.Add,
          input := ⟨['x'], 1⟩ } : AppState).items) ∧
    (∃ t, step 80 24 (press KeyCode.Enter)
        { AppState.new with
          current_screen := CurrentScreen.Add, input := ⟨['x'], 1⟩ } =
          some t ∧
      t.input = Input.default) :=
  ⟨(edit_buffer_reset_only_on_commit _).2.1 80 24 (Or.inl rfl),
    (edit_buffer_reset_only_on_commit _).2.2.1 80 24 rfl⟩

theorem handle_editing_isSome {k : KeyEvent} {evt : Event} {s u : AppState}
    (hh : handleKey k evt s = some u) (hs : s.currently_editing.isSome) :
    u.currently_editing.isSome := by
  unfold handleKey handleMain handleEdit handleAdd at hh
  cases hscreen : s.current_screen <;> simp only [hscreen] at hh <;>
    cases hcode : k.code <;> (try simp only [hcode] at hh) <;>
    (try simp only [AppState.replace, Input.value_and_reset] at hh) <;>
    (repeat' split at hh) <;> cases hh <;>
    first
      | exact hs
      | rfl
      | (rename_i s2 heq
         split at heq
         · injection heq with heq
           subst heq
           exact hs
         · exact Option.noConfusion heq)

theorem handle_edit_editing {c : KeyCode} {evt : Event} {s u : AppState}
    (hh : handleEdit c evt s = some u) :
    u.currently_editing = s.currently_editing := by
  unfold handleEdit at hh
  cases hcode : c <;> simp only [hcode] at hh <;>
    (try simp only [AppState.replace, Input.value_and_reset] at hh) <;>
    (repeat' split at hh) <;> cases hh <;>
    first
      | rfl
      | (rename_i s2 heq
         split at heq
         · injection heq with heq
           subst heq
           rfl
         · exact Option.noConfusion heq)

theorem step_editing_isSome {fw fh : Nat} {s t : AppState} {e : Event}
    (hs : s.currently_editing.isSome) (hst : step fw fh e s = some t) :
    t.currently_editing.isSome := by
  cases e with
  | Other =>
    simp only [step] at hst
    injection hst with hst
    subst hst
    rw [renderEffect_editing]
    exact hs
  | Key k =>
    simp only [step] at hst
    by_cases hk : k.kind = KeyEventKind.Release
    · rw [if_pos hk] at hst
      injection hst with hst
      subst hst
      exact hs
    · rw [if_neg hk] at hst
      match hh : handleKey k (Event.Key k) s with
      | some u =>
        rw [hh] at hst
        simp only [Option.map_some'] at hst
        injection hst with hst
        subst hst
        rw [renderEffect_editing]
        exact handle_editing_isSome hh hs
      | none =>
        rw [hh] at hst
        simp at hst

theorem step_edit_screen_editing {fw fh : Nat} {s t : AppState} {e : Event}
    (hscr : s.current_screen = CurrentScreen.Edit)
    (hst : step fw fh e s = some t) :
    t.currently_editing = s.currently_editing := by
  cases e with
  | Other =>
    simp only [step] at hst
    injection hst with hst
    subst hst
    exact renderEffect_editing fw fh s
  | Key k =>
    simp only [step] at hst
    by_cases hk : k.kind = KeyEventKind.Release
    · rw [if_pos hk] at hst
      injection hst with hst
      subst hst
      rfl
    · rw [if_neg hk] at hst
      match hh : handleKey k (Event.Key k) s with
      | some u =>
        rw [hh] at hst
        simp only [Option.map_some'] at hst
        injection hst with hst
        subst hst
        have h2 : u.currently_editing = s.currently_editing := by
          unfold handleKey at hh
          rw [hscr] at hh
          exact handle_edit_editing hh
        rw [renderEffect_editing, h2]
      | none =>
        rw [hh] at hst
        simp at hst

/-- C10: once `currently_editing` holds a saved item, no step — on any
terminal size — ever resets it to `none`; committing (Enter) or cancelling
(Esc) the Edit screen leaves the saved item in place; and on every
reachable state (degenerate terminals included) the `Edit` screen implies
an item is being edited, so the `edit_ui` fallback to `Main` (taken when
`currently_editing` is `none` while the screen is `Edit`) is
unreachable. -/
theorem currently_editing_never_cleared :
    (∀ (s t : AppState) (e : Event) (fw fh : Nat) (ce : TodoItem),
      s.currently_editing = some ce → step fw fh e s = some t →
      t.currently_editing.isSome) ∧
    (∀ (s t : AppState) (fw fh : Nat),
      s.current_screen = CurrentScreen.Edit →
      (step fw fh (press KeyCode.Esc) s = some t →
        t.currently_editing = s.currently_editing) ∧
      (step fw fh (press KeyCode.Enter) s = some t →
        t.currently_editing = s.currently_editing)) ∧
    (∀ s : AppState, Reachable s → s.current_screen = CurrentScreen.Edit →
      s.currently_editing ≠ none) := by
  refine ⟨?_, ?_, ?_⟩
  · intro s t e fw fh ce hce hst
    exact step_editing_isSome (by rw [hce]; rfl) hst
  · intro s t fw fh hscr
    exact ⟨fun hst => step_edit_screen_editing hscr hst,
      fun hst => step_edit_screen_editing hscr hst⟩
  · intro s hr hscr
    exact Option.isSome_iff_ne_none.mp (editInv_reachable hr hscr)

/-- A concrete state holding a saved edited item, used as a witness input. -/
def editingDemo : AppState :=
  { AppState.new with currently_editing := some ⟨false, ['x']⟩ }

/-- C10 witness: the preservation applied at a concrete state holding a
saved item, under a Down key press on an 80×24 terminal. -/
theorem currently_editing_never_cleared_witness :
    editingDemo.currently_editing = some ⟨false, ['x']⟩ ∧
    step 80 24 (press KeyCode.Down) editingDemo = some editingDemo ∧
    editingDemo.currently_editing.isSome :=
  ⟨rfl, by decide,
    currently_editing_never_cleared.1 editingDemo editingDemo
      (press KeyCode.Down) 80 24 ⟨false, ['x']⟩ rfl (by decide)⟩

/-- C5: pressing Space on the Main screen with a task selected flips exactly
that item's `done` flag in place — the item keeps its description, every
other item is unchanged and the length is preserved — on every terminal
size; with no selection it is a no-op, and on an empty list (whose states,
reachable with all redraws on a usable terminal, always have an empty
selection) it is a no-op. -/
theorem space_toggles_only_selected (s : AppState)
    (hscr : s.current_screen = CurrentScreen.Main) :
    (∀ fw fh i e, s.todo_list_state.selected = some i →
      s.items[i]? = some e →
      step fw fh (press (KeyCode.Char ' ')) s =
        some { s with items := s.items.set i ⟨!e.done, e.description⟩ } ∧
      ∀ t, step fw fh (press (KeyCode.Char ' ')) s = some t →
        t.items.length = s.items.length ∧
        t.items[i]? = some ⟨!e.done, e.description⟩ ∧
        ∀ j, j ≠ i → t.items[j]? = s.items[j]?) ∧
    (∀ fw fh, s.todo_list_state.selected = none →
      step fw fh (press (KeyCode.Char ' ')) s = some s) ∧
    (∀ fw fh, s.items = [] → ReachableUsable s →
      step fw fh (press (KeyCode.Char ' ')) s = some s) := by
  refine ⟨?_, fun fw fh hnone => step_main_space_none fw fh hscr hnone, ?_⟩
  · intro fw fh i e hsel hget
    have hlen : i < s.items.length := by
      obtain ⟨hlt, -⟩ := List.getElem?_eq_some.mp hget
      omega
    have hstep := step_main_space_toggle fw fh hscr hsel hget
    refine ⟨hstep, ?_⟩
    intro t ht
    rw [hstep] at ht
    injection ht with ht
    subst ht
    refine ⟨by simp, ?_, ?_⟩
    · simp [List.getElem?_set_self hlen]
    · intro j hj
      simp [List.getElem?_set_ne (Ne.symm hj)]
  · intro fw fh he hr
    exact step_main_space_none fw fh hscr
      (selValid_empty_none (inv_reachable hr) he)

/-- A concrete one-item Main-screen state with item `0` selected. -/
def spaceDemo : AppState :=
  ⟨CurrentScreen.Main, ⟨[], 0⟩, none, 0, ⟨some 0⟩, [⟨false, ['x']⟩]⟩

/-- C5 witness: toggling at a concrete one-item state with item `0`
selected, on an 80×24 terminal. -/
theorem space_toggles_only_selected_witness :
    step 80 24 (press (KeyCode.Char ' ')) spaceDemo =
      some { spaceDemo with items := spaceDemo.items.set 0 ⟨!false, ['x']⟩ } :=
  ((space_toggles_only_selected spaceDemo rfl).1 80 24 0 ⟨false, ['x']⟩
    rfl rfl).1

/-- C6: pressing Esc on the Add or Edit screen leaves the task list exactly
as it was before entering that screen, on every terminal size: entering Add
via 'a' (or Edit via Enter on a selected item) from Main, then any sequence
of input-neutral events, then Esc, returns to Main with the item list equal
to the original one. -/
theorem esc_leaves_list_unmodified :
    (∀ (fw fh : Nat) (s : AppState) (evs : List Event) (s1 s2 t : AppState),
      s.current_screen = CurrentScreen.Main →
      (∀ e ∈ evs, inputNeutral e = true) →
      step fw fh (press (KeyCode.Char 'a')) s = some s1 →
      steps fw fh evs s1 = some s2 →
      step fw fh (press KeyCode.Esc) s2 = some t →
      t.current_screen = CurrentScreen.Main ∧ t.items = s.items) ∧
    (∀ (fw fh : Nat) (s : AppState) (i : Nat) (e0 : TodoItem)
        (evs : List Event) (s1 s2 t : AppState),
      s.current_screen = CurrentScreen.Main →
      s.todo_list_state.selected = some i → s.items[i]? = some e0 →
      (∀ e ∈ evs, inputNeutral e = true) →
      step fw fh (press KeyCode.Enter) s = some s1 →
      steps fw fh evs s1 = some s2 →
      step fw fh (press KeyCode.Esc) s2 = some t →
      t.current_screen = CurrentScreen.Main ∧ t.items = s.items) := by
  constructor
  · intro fw fh s evs s1 s2 t hscr hn h1 h2 h3
    rw [step_main_a fw fh hscr] at h1
    injection h1 with h1
    subst h1
    obtain ⟨inp, hs2⟩ := steps_add_neutral
      (s := { s with current_screen := CurrentScreen.Add }) rfl hn
    rw [hs2] at h2
    injection h2 with h2
    subst h2
    rw [step_esc_add fw fh rfl] at h3
    injection h3 with h3
    subst h3
    exact ⟨rfl, rfl⟩
  · intro fw fh s i e0 evs s1 s2 t hscr hsel hget hn h1 h2 h3
    rw [step_main_enter fw fh hscr hsel hget] at h1
    injection h1 with h1
    subst h1
    obtain ⟨inp, hs2⟩ := steps_edit_neutral
      (s := { s with
        current_screen := CurrentScreen.Edit
        input := Input.fromString e0.description
        currently_editing := some e0 }) (c := e0) rfl rfl hn
    rw [hs2] at h2
    injection h2 with h2
    subst h2
    rw [step_esc_edit fw fh rfl] at h3
    injection h3 with h3
    subst h3
    exact ⟨rfl, rfl⟩

/-- C6 witness: 'a' from the initial state, no editing events, then Esc, on
an 80×24 terminal — the list (empty) is unchanged. -/
theorem esc_leaves_list_unmodified_witness :
    AppState.new.current_screen = CurrentScreen.Main ∧
    AppState.new.items = AppState.new.items :=
  esc_leaves_list_unmodified.1 80 24 AppState.new []
    { AppState.new with current_screen := CurrentScreen.Add }
    { AppState.new with current_screen := CurrentScreen.Add }
    AppState.new rfl (by simp) (by decide) rfl (by decide)

theorem steps_append (fw fh : Nat) (xs ys : List Event) (s : AppState) :
    steps fw fh (xs ++ ys) s =
      match steps fw fh xs s with
      | some u => steps fw fh ys u
      | none => none := by
  induction xs generalizing s with
  | nil => rfl
  | cons e es ih =>
    simp only [List.cons_append, steps]
    cases step fw fh e s with
    | none => rfl
    | some u => exact ih u

theorem step_add_char (fw fh : Nat) {s : AppState} {v : List Char} (c : Char)
    (hscr : s.current_screen = CurrentScreen.Add)
    (hinp : s.input = ⟨v, v.length⟩) :
    step fw fh (press (KeyCode.Char c)) s =
      some { s with input := ⟨v ++ [c], (v ++ [c]).length⟩ } := by
  obtain ⟨scr, inp0, ced, ei, tls, its⟩ := s
  dsimp only at hscr hinp
  subst hscr
  subst hinp
  simp [step, press, handleKey, handleAdd, Input.handle_event,
    Input.insertChar, renderEffect, List.take_length, List.drop_length]

theorem steps_typing (fw fh : Nat) (cs : List Char) {s : AppState}
    {v : List Char}
    (hscr : s.current_screen = CurrentScreen.Add)
    (hinp : s.input = ⟨v, v.length⟩) :
    steps fw fh (typing cs) s =
      some { s with input := ⟨v ++ cs, (v ++ cs).length⟩ } := by
  induction cs generalizing s v with
  | nil =>
    simp only [typing, List.map_nil, steps, List.append_nil]
    rw [← hinp]
  | cons c cs ih =>
    have h1 := step_add_char fw fh (s := s) (v := v) c hscr hinp
    simp only [typing, List.map_cons, steps, h1]
    have h2 := ih (s := { s with input := ⟨v ++ [c], (v ++ [c]).length⟩ })
      (v := v ++ [c]) hscr rfl
    simp only [typing] at h2
    rw [h2]
    simp

/-- The key sequence of one Add commit: 'a' from Main, type the description,
then Enter. -/
def addBlock (d : List Char) : List Event :=
  press (KeyCode.Char 'a') :: typing d ++ [press KeyCode.Enter]

/-- The key sequence of a whole series of Add commits. -/
def addTrace (descs : List (List Char)) : List Event :=
  (descs.map addBlock).flatten

/-- A Main-screen state with the given items and everything else as at
start-up. -/
def mainState (items : List TodoItem) : AppState :=
  { AppState.new with items := items }

theorem steps_cons_some {fw fh : Nat} {e : Event} {s u : AppState}
    (h : step fw fh e s = some u) (es : List Event) :
    steps fw fh (e :: es) s = steps fw fh es u := by
  simp only [steps, h]

theorem steps_append_some {fw fh : Nat} {xs : List Event} {s u : AppState}
    (h : steps fw fh xs s = some u) (ys : List Event) :
    steps fw fh (xs ++ ys) s = steps fw fh ys u := by
  rw [steps_append, h]

theorem steps_addBlock (fw fh : Nat) (its : List TodoItem) (d : List Char) :
    steps fw fh (addBlock d) (mainState its) =
      some (mainState (its ++ [TodoItem.mk false d])) := by
  have h1 : step fw fh (press (KeyCode.Char 'a')) (mainState its) =
      some { mainState its with current_screen := CurrentScreen.Add } :=
    step_main_a fw fh rfl
  have h2 := steps_typing fw fh d
    (s := { mainState its with current_screen := CurrentScreen.Add })
    (v := []) rfl rfl
  have h3 := step_add_commit fw fh
    (s := { mainState its with
      current_screen := CurrentScreen.Add
      input := ⟨[] ++ d, ([] ++ d).length⟩ }) rfl
  calc steps fw fh (addBlock d) (mainState its)
      = steps fw fh (typing d ++ [press KeyCode.Enter])
          { mainState its with current_screen := CurrentScreen.Add } :=
        steps_cons_some h1 _
    _ = steps fw fh [press KeyCode.Enter]
          { mainState its with
            current_screen := CurrentScreen.Add
            input := ⟨[] ++ d, ([] ++ d).length⟩ } :=
        steps_append_some h2 _
    _ = some (mainState (its ++ [TodoItem.mk false d])) := by
        simp only [steps, h3]
        unfold mainState AppState.new
        simp [listRender_none, Input.default, ListState.default]

theorem steps_addTrace (fw fh : Nat) (descs : List (List Char))
    (its : List TodoItem) :
    steps fw fh (addTrace descs) (mainState its) =
      some (mainState (its ++ descs.map (fun d => TodoItem.mk false d))) := by
  induction descs generalizing its with
  | nil => simp [addTrace, steps, mainState]
  | cons d ds ih =>
    have hsplit : addTrace (d :: ds) = addBlock d ++ addTrace ds := by
      simp [addTrace]
    calc steps fw fh (addTrace (d :: ds)) (mainState its)
        = steps fw fh (addTrace ds)
            (mainState (its ++ [TodoItem.mk false d])) := by
          rw [hsplit]
          exact steps_append_some (steps_addBlock fw fh its d) _
      _ = some (mainState ((its ++ [TodoItem.mk false d]) ++
            ds.map (fun d => TodoItem.mk false d))) := ih _
      _ = some (mainState (its ++
            (d :: ds).map (fun d => TodoItem.mk false d))) := by
          simp

/-- C4: for every sequence of Add commits (each: 'a' from Main, type the
description, Enter) and every terminal size, starting from the initial
state the task list afterwards contains exactly the committed items in
commit order, each created as `TodoItem { done := false, description :=
buffer }`, the list length equals the number of commits, and the input
buffer has been reset by each commit (the final state's buffer is the
default). -/
theorem add_commit_sequence (fw fh : Nat) (descs : List (List Char)) :
    steps fw fh (addTrace descs) AppState.new =
      some { AppState.new with
        items := descs.map (fun d => TodoItem.mk false d) } ∧
    (descs.map (fun d => TodoItem.mk false d)).length = descs.length ∧
    ({ AppState.new with
        items := descs.map (fun d => TodoItem.mk false d) } : AppState).input =
      Input.default := by
  refine ⟨?_, by simp, rfl⟩
  have := steps_addTrace fw fh descs []
  simpa [mainState] using this

/-- C8: starting from the empty initial state on an 80×24 terminal:
Add-commit of "buy milk" ('a', type it, Enter), select it (Down), Enter to
edit, change the buffer text to "buy oat milk" (four Backspaces, then type
"oat milk"), Enter to commit — the list contains exactly one item, with
description "buy oat milk" and the original `done` value `false`. -/
theorem round_trip_edit_description :
    steps 80 24 (press (KeyCode.Char 'a') :: typing "buy milk".toList ++
        [press KeyCode.Enter, press KeyCode.Down, press KeyCode.Enter] ++
        List.replicate 4 (press KeyCode.Backspace) ++
        typing "oat milk".toList ++ [press KeyCode.Enter]) AppState.new =
      some { AppState.new with
        currently_editing := some ⟨false, "buy milk".toList⟩
        todo_list_state := ⟨some 0⟩
        items := [⟨false, "buy oat milk".toList⟩] } ∧
    ({ AppState.new with
        currently_editing := some ⟨false, "buy milk".toList⟩
        todo_list_state := ⟨some 0⟩
        items := [⟨false, "buy oat milk".toList⟩] } : AppState).items =
      [⟨false, "buy oat milk".toList⟩] ∧
    (TodoItem.mk false "buy oat milk".toList).done = false := by
  refine ⟨by decide, rfl, rfl⟩

/-- C3: with a selection and an item being edited, Enter on the Edit screen
replaces the item at the selected index by `{done := saved.done,
description := buffer}`, on every terminal size: entering Edit from Main on
a valid selection `i` saves a copy of item `i`, and — after any sequence of
input-neutral editing events — Enter replaces item `i` with the saved
`done` flag (its value from before the edit began) and the final buffer as
description, leaves every other element unchanged, and preserves the list's
length (hence its order). -/
theorem edit_commit_replaces_selected (fw fh : Nat) (s : AppState) (i : Nat)
    (e0 : TodoItem) (evs : List Event) (s1 s2 t : AppState)
    (hscr : s.current_screen = CurrentScreen.Main)
    (hsel : s.todo_list_state.selected = some i)
    (hget : s.items[i]? = some e0)
    (hn : ∀ e ∈ evs, inputNeutral e = true)
    (h1 : step fw fh (press KeyCode.Enter) s = some s1)
    (h2 : steps fw fh evs s1 = some s2)
    (h3 : step fw fh (press KeyCode.Enter) s2 = some t) :
    t.items = s.items.set i ⟨e0.done, s2.input.value⟩ ∧
    t.items.length = s.items.length ∧
    t.items[i]? = some ⟨e0.done, s2.input.value⟩ ∧
    (∀ j, j ≠ i → t.items[j]? = s.items[j]?) ∧
    t.current_screen = CurrentScreen.Main ∧
    t.input = Input.default := by
  have hlen : i < s.items.length := by
    obtain ⟨hlt, -⟩ := List.getElem?_eq_some.mp hget
    omega
  rw [step_main_enter fw fh hscr hsel hget] at h1
  injection h1 with h1
  subst h1
  obtain ⟨inp, hs2⟩ := steps_edit_neutral
    (s := { s with
      current_screen := CurrentScreen.Edit
      input := Input.fromString e0.description
      currently_editing := some e0 }) (c := e0) rfl rfl hn
  rw [hs2] at h2
  injection h2 with h2
  have hs2eq : s2 = { s with
      current_screen := CurrentScreen.Edit
      input := inp
      currently_editing := some e0 } := h2.symm
  subst hs2eq
  have hsel2 : ({ s with
      current_screen := CurrentScreen.Edit
      input := inp
      currently_editing := some e0 } : AppState).todo_list_state.selected =
      some i := hsel
  have hlen2 : i < ({ s with
      current_screen := CurrentScreen.Edit
      input := inp
      currently_editing := some e0 } : AppState).items.length := hlen
  rw [step_edit_commit fw fh rfl hsel2 hlen2 rfl] at h3
  injection h3 with h3
  subst h3
  refine ⟨rfl, by simp, ?_, ?_, rfl, rfl⟩
  · exact List.getElem?_set_self hlen
  · intro j hj
    exact List.getElem?_set_ne (Ne.symm hj)

/-- A concrete Main-screen state with one done item selected, for the C3
witness. -/
def editDemo : AppState :=
  ⟨CurrentScreen.Main, ⟨[], 0⟩, none, 0, ⟨some 0⟩, [⟨true, ['m']⟩]⟩

/-- The state after pressing Enter on `editDemo` (entering the Edit
screen). -/
def editDemo1 : AppState :=
  ⟨CurrentScreen.Edit, ⟨['m'], 1⟩, some ⟨true, ['m']⟩, 0, ⟨some 0⟩,
    [⟨true, ['m']⟩]⟩

/-- The state after committing the edit from `editDemo1`. -/
def editDemoT : AppState :=
  ⟨CurrentScreen.Main, ⟨[], 0⟩, some ⟨true, ['m']⟩, 0, ⟨some 0⟩,
    [⟨true, ['m']⟩]⟩

/-- C3 witness: the commit applied at `editDemo` on an 80×24 terminal with
no editing events — the item keeps `done := true` and takes the buffer "m"
as description. -/
theorem edit_commit_replaces_selected_witness :
    editDemoT.items = editDemo.items.set 0 ⟨true, editDemo1.input.value⟩ ∧
    editDemoT.items.length = editDemo.items.length ∧
    editDemoT.items[0]? = some ⟨true, editDemo1.input.value⟩ ∧
    (∀ j, j ≠ 0 → editDemoT.items[j]? = editDemo.items[j]?) ∧
    editDemoT.current_screen = CurrentScreen.Main ∧
    editDemoT.input = Input.default := by
  have h := edit_commit_replaces_selected 80 24 editDemo 0 ⟨true, ['m']⟩ []
    editDemo1 editDemo1 editDemoT rfl rfl rfl (by simp) (by decide) rfl
    (by decide)
  exact h

/-! ## Rendering geometry (`add_ui` / `edit_ui`) -/

/-- The width of the input-box area both `add_ui` and `edit_ui` build:
`Rect::new(0, 0, frame.area().width.max(3) - 3, 3)` — the frame width
clamped below by 3, minus the constant 3, in `u16` arithmetic. -/
def inputAreaWidth (frameWidth : Nat) : Nat := max frameWidth 3 - 3

/-- The caret column both `add_ui` and `edit_ui` compute:
`x = input.visual_cursor().max(scroll) - scroll + 1`, where
`scroll = input.visual_scroll(area.width as usize)`. -/
def caretX (cw : CharWidth) (frameWidth : Nat) (inp : Input) : Nat :=
  max (inp.visual_cursor cw) (inp.visual_scroll cw (inputAreaWidth frameWidth)) -
      inp.visual_scroll cw (inputAreaWidth frameWidth) + 1

/-- The caret position `add_ui` passes to `set_cursor_position`:
`(area.x + x, area.y + 1)` with the area at the origin. -/
def add_ui_caret (cw : CharWidth) (frameWidth : Nat) (s : AppState) :
    Nat × Nat :=
  (0 + caretX cw frameWidth s.input, 0 + 1)

/-- The caret position `edit_ui` passes to `set_cursor_position`, set only
when an item is being edited (otherwise `edit_ui` draws nothing and falls
back to the Main screen). -/
def edit_ui_caret (cw : CharWidth) (frameWidth : Nat) (s : AppState) :
    Option (Nat × Nat) :=
  match s.currently_editing with
  | some _ => some (0 + caretX cw frameWidth s.input, 0 + 1)
  | none => none

theorem scrollScan_le (cw : CharWidth) (scroll : Nat) :
    ∀ (cs : List Char) (u k : Nat),
      scroll ≤ u + ((cs.take k).map cw).sum →
      Input.scrollScan cw scroll cs u ≤ u + ((cs.take k).map cw).sum := by
  intro cs
  induction cs with
  | nil =>
    intro u k h
    simp [Input.scrollScan]
  | cons c cs ih =>
    intro u k h
    unfold Input.scrollScan
    split
    · match k with
      | 0 =>
        simp only [List.take_zero, List.map_nil, List.sum_nil,
          Nat.add_zero] at h
        omega
      | k' + 1 =>
        simp only [List.take_succ_cons, List.map_cons, List.sum_cons] at h ⊢
        have := ih (u + cw c) k' (by omega)
        omega
    · exact Nat.le_add_right u _

/-- The scroll offset never exceeds the visual cursor: the scan stops at the
first prefix-width sum reaching `scroll`, and the cursor's prefix-width sum
already reaches it. -/
theorem visual_scroll_le_visual_cursor (cw : CharWidth) (w : Nat)
    (inp : Input) :
    inp.visual_scroll cw w ≤ inp.visual_cursor cw := by
  unfold Input.visual_scroll
  have h := scrollScan_le cw (max (inp.visual_cursor cw) w - w) inp.value 0
    inp.cursor (by unfold Input.visual_cursor; omega)
  unfold Input.visual_cursor at h ⊢
  omega

/-- C9: in the `add_ui` and `edit_ui` renderers, for every frame width and
buffer content, the caret is placed `visual_cursor - visual_scroll + 1`
columns from the box's left edge (the subtraction is exact over ℤ because
the scroll never exceeds the visual cursor, so the `.max(scroll)` guard
never changes the value) and one row below the box's top border; the input
area's width is the frame width clamped to a minimum of 3 before the
border constant 3 is subtracted, so the `u16` width subtraction cannot
underflow and its result still fits in `u16`. -/
theorem caret_position_and_width_clamp (cw : CharWidth) (frameWidth : Nat)
    (s : AppState) (hw : frameWidth < 2 ^ 16) :
    (3 ≤ max frameWidth 3 ∧
      (inputAreaWidth frameWidth : ℤ) = (max frameWidth 3 : ℤ) - 3 ∧
      inputAreaWidth frameWidth < 2 ^ 16) ∧
    (s.input.visual_scroll cw (inputAreaWidth frameWidth) ≤
        s.input.visual_cursor cw ∧
      (caretX cw frameWidth s.input : ℤ) =
        (s.input.visual_cursor cw : ℤ) -
          (s.input.visual_scroll cw (inputAreaWidth frameWidth) : ℤ) + 1) ∧
    add_ui_caret cw frameWidth s = (caretX cw frameWidth s.input, 1) ∧
    (s.currently_editing.isSome →
      edit_ui_caret cw frameWidth s =
        some (caretX cw frameWidth s.input, 1)) ∧
    (s.currently_editing = none →
      edit_ui_caret cw frameWidth s = none) := by
  have hscroll := visual_scroll_le_visual_cursor cw
    (inputAreaWidth frameWidth) s.input
  refine ⟨⟨by omega, ?_, ?_⟩, ⟨hscroll, ?_⟩, ?_, ?_, ?_⟩
  · unfold inputAreaWidth
    omega
  · unfold inputAreaWidth
    omega
  · unfold caretX
    omega
  · simp [add_ui_caret]
  · intro h
    obtain ⟨ce, hce⟩ := Option.isSome_iff_exists.mp h
    simp [edit_ui_caret, hce]
  · intro h
    simp [edit_ui_caret, h]

/-- C9 witness: the geometry at frame width 80, the empty buffer, the
initial state and the all-ones width table. -/
theorem caret_position_and_width_clamp_witness :
    (3 ≤ max 80 3 ∧
      (inputAreaWidth 80 : ℤ) = (max 80 3 : ℤ) - 3 ∧
      inputAreaWidth 80 < 2 ^ 16) ∧
    (AppState.new.input.visual_scroll (fun _ => 1) (inputAreaWidth 80) ≤
        AppState.new.input.visual_cursor (fun _ => 1) ∧
      (caretX (fun _ => 1) 80 AppState.new.input : ℤ) =
        (AppState.new.input.visual_cursor (fun _ => 1) : ℤ) -
          (AppState.new.input.visual_scroll (fun _ => 1)
            (inputAreaWidth 80) : ℤ) + 1) ∧
    add_ui_caret (fun _ => 1) 80 AppState.new =
      (caretX (fun _ => 1) 80 AppState.new.input, 1) ∧
    (AppState.new.currently_editing.isSome →
      edit_ui_caret (fun _ => 1) 80 AppState.new =
        some (caretX (fun _ => 1) 80 AppState.new.input, 1)) ∧
    (AppState.new.currently_editing = none →
      edit_ui_caret (fun _ => 1) 80 AppState.new = none) :=
  caret_position_and_width_clamp (fun _ => 1) 80 AppState.new (by decide)

end TodoTui
